import Mathlib

/-!
Verification of the Weka-J48 tree-text → Graphviz-DOT compiler
(`parse_weka_j48_tree`, `build_tree_structure`, `generate_dot_from_tree`).

The Python source is embedded shallowly: strings are `List Char`,
Python's `dict` (which preserves insertion order) is an association list,
and the parent-resolution stack is a list whose head is the top.
Floating-point values only ever arise here by parsing short decimal
numerals out of the input text and printing them back; they are modelled
exactly as decimal numbers `Dec` (a natural scaled by a power of ten,
normalised like `float` repr normalises `"15.70"` to `15.7`).
-/

namespace TreeViz

/-- Python whitespace characters (the ASCII set stripped by `str.strip()`
and matched by the regex class). -/
def pyWS (c : Char) : Bool :=
  c = ' ' || c = '\t' || c = '\n' || c = '\r' || c = '\x0b' || c = '\x0c'

/-- Python `str.strip()`: drop whitespace from both ends. -/
def strip (l : List Char) : List Char :=
  ((l.dropWhile pyWS).reverse.dropWhile pyWS).reverse

/-- Helper for `splitLines`: prepend a character to the first segment. -/
def consHead (c : Char) : List (List Char) → List (List Char)
  | [] => [[c]]
  | h :: t => (c :: h) :: t

/-- Python `str.split('\n')`: always at least one (possibly empty) segment. -/
def splitLines : List Char → List (List Char)
  | [] => [[]]
  | c :: r => if c = '\n' then [] :: splitLines r else consHead c (splitLines r)

/-- The fixed indentation marker `"|   "` (pipe + three spaces). -/
def marker : List Char := ['|', ' ', ' ', ' ']

/-- One step of `while line.startswith('|   '): level += 1; line = line[4:]`,
written with explicit fuel (one unit per stripped marker suffices, and the
line length bounds the number of markers) so that it reduces by `rfl`. -/
def stripLevelF : Nat → List Char → Nat × List Char
  | 0, l => (0, l)
  | fuel + 1, l =>
    if l.take 4 = marker then
      let p := stripLevelF fuel (l.drop 4)
      (p.1 + 1, p.2)
    else (0, l)

/-- Indentation-depth computation of the Line Classifier: count and remove
leading `"|   "` markers. -/
def stripLevel (l : List Char) : Nat × List Char :=
  stripLevelF l.length l

/-- Digit-string → value, as `float()` does on the integral digit runs. -/
def natVal (cs : List Char) : Nat :=
  cs.foldl (fun a c => 10 * a + (c.toNat - 48)) 0

/-- Exact decimal number: value is `num / 10 ^ exp`. -/
structure Dec where
  num : Nat
  exp : Nat
deriving DecidableEq

/-- Remove trailing decimal zeros (recursion on the exponent), so that a
`Dec` canonically represents its value, as a `float` does. -/
def normDec : Nat → Nat → Dec
  | n, 0 => ⟨n, 0⟩
  | n, e + 1 => if n % 10 = 0 then normDec (n / 10) e else ⟨n, e + 1⟩

/-- Python `float(tok)` for a token matched by `\d+\.?\d*`. -/
def mkDec (tok : List Char) : Dec :=
  let ip := tok.takeWhile (·.isDigit)
  let rest := tok.dropWhile (·.isDigit)
  let fp := match rest with
    | '.' :: f => f
    | _ => []
  normDec (natVal (ip ++ fp)) fp.length

/-- The value of a `Dec` as a rational. -/
def Dec.toQ (d : Dec) : ℚ := (d.num : ℚ) / 10 ^ d.exp

/-- Decimal rendering of a natural number (fuelled so it reduces by `rfl`);
`natStr` below supplies adequate fuel. -/
def natStrAux : Nat → Nat → List Char
  | 0, _ => []
  | fuel + 1, n =>
    if n < 10 then [Nat.digitChar n]
    else natStrAux fuel (n / 10) ++ [Nat.digitChar (n % 10)]

/-- Python `str(n)` for a non-negative integer. -/
def natStr (n : Nat) : List Char := natStrAux (n + 1) n

/-- Python `repr(float)` restricted to (non-huge) decimal values: integral
values print with a trailing `.0`, fractional values print all `exp`
fractional digits (`Dec` is normalised, so there are no trailing zeros). -/
def reprDec (d : Dec) : List Char :=
  if d.exp = 0 then natStr d.num ++ ['.', '0']
  else
    let m := d.num % 10 ^ d.exp
    natStr (d.num / 10 ^ d.exp) ++ '.' ::
      (List.replicate (d.exp - (natStr m).length) '0' ++ natStr m)

/-- Round `n / m` to the nearest integer, ties to even (Python's float
formatting rounding mode, exact on decimal inputs). -/
def roundHalfEven (n m : Nat) : Nat :=
  let q := n / m
  let r := n % m
  if m < 2 * r then q + 1
  else if 2 * r < m then q
  else if q % 2 = 0 then q else q + 1

/-- Python `f"{x:.2f}"` on a decimal value: exactly two fractional digits. -/
def fmt2 (d : Dec) : List Char :=
  let q := if d.exp ≤ 2 then d.num * 10 ^ (2 - d.exp)
           else roundHalfEven d.num (10 ^ (d.exp - 2))
  natStr (q / 100) ++ ['.', Nat.digitChar (q % 100 / 10), Nat.digitChar (q % 10)]

/-- The characters a number token is made of (`\d` and the decimal dot). -/
def numClass (c : Char) : Bool := c.isDigit || c = '.'

/-- Does a token fully match `\d+\.?\d*`? -/
def validNum (tok : List Char) : Bool :=
  !(tok.takeWhile (·.isDigit)).isEmpty &&
    (match tok.dropWhile (·.isDigit) with
     | [] => true
     | '.' :: r => r.all (·.isDigit)
     | _ => false)

/-- Match the leaf-clause suffix `:\s*(POS|NEG)\s*\((\d+\.?\d*)(?:/(\d+\.?\d*))?\)$`
against the whole of `cs` (the number groups are forced to be the maximal
digit-and-dot runs because the characters that may follow them — `/` and `)` —
are outside that class). Returns (class, instance token, error token?). -/
def matchLeafSuffix (cs : List Char) : Option (List Char × List Char × Option (List Char)) :=
  match cs with
  | ':' :: r =>
    let r1 := r.dropWhile pyWS
    let cls := if r1.take 3 = "POS".data then some ("POS".data)
               else if r1.take 3 = "NEG".data then some ("NEG".data)
               else none
    match cls with
    | none => none
    | some c =>
      match (r1.drop 3).dropWhile pyWS with
      | '(' :: r3 =>
        let tok := r3.takeWhile numClass
        if validNum tok then
          match r3.dropWhile numClass with
          | [')'] => some (c, tok, none)
          | '/' :: r5 =>
            let tok2 := r5.takeWhile numClass
            if validNum tok2 then
              match r5.dropWhile numClass with
              | [')'] => some (c, tok, some tok2)
              | _ => none
            else none
          | _ => none
        else none
      | _ => none
  | _ => none

/-- `re.match(r'(.*):\s*(POS|NEG)\s*\((\d+\.?\d*)(?:/(\d+\.?\d*))?\)$', cs)`:
the greedy `(.*)` makes the engine take the rightmost position at which the
rest of the pattern matches the whole remaining suffix. Returns the
captured prefix together with `matchLeafSuffix`'s groups. -/
def leafSplit : List Char → Option (List Char × (List Char × List Char × Option (List Char)))
  | [] => none
  | c :: rest =>
    match leafSplit rest with
    | some (pre, g) => some (c :: pre, g)
    | none =>
      match matchLeafSuffix (c :: rest) with
      | some g => some ([], g)
      | none => none

/-- One parsed line of tree text (the Python per-node dictionary). -/
structure RNode where
  level : Nat
  text : List Char
  prediction : Option (List Char)
  instances : Option Dec
  error : Option Dec
  parent_node_id : Option (List Char)
  parent_relation : Option (List Char)
  node_id : Option (List Char)
deriving DecidableEq

instance : Inhabited RNode := ⟨⟨0, [], none, none, none, none, none, none⟩⟩

/-- Loop body of `parse_weka_j48_tree`: `none` for a blank line, otherwise
the node dictionary built for the line. -/
def parseLine (line : List Char) : Option RNode :=
  if strip line = [] then none
  else
    let p := stripLevel line
    let nt := strip p.2
    match leafSplit nt with
    | some (pre, cls, tok, errTok) =>
      some { level := p.1, text := strip pre, prediction := some cls,
             instances := some (mkDec tok),
             error := some (match errTok with
               | some e => mkDec e
               | none => ⟨0, 0⟩),
             parent_node_id := none, parent_relation := none, node_id := none }
    | none =>
      some { level := p.1, text := nt, prediction := none, instances := none,
             error := none, parent_node_id := none, parent_relation := none,
             node_id := none }

/-- `parse_weka_j48_tree`: strip the text, split into lines, parse each
non-blank line in order. -/
def parse_weka_j48_tree (tree_text : List Char) : List RNode :=
  (splitLines (strip tree_text)).filterMap parseLine

/-- The identifier `f"N{node_counter}"`. -/
def nodeId (n : Nat) : List Char := 'N' :: natStr n

/-- State of `build_tree_structure`'s loop: the node table (a Python dict,
in insertion order), the id counter, the ancestor stack of (id, level)
pairs with the top at the head, and the last root id seen. -/
@[ext]
structure BuildState where
  dict : List (List Char × RNode)
  counter : Nat
  stack : List (List Char × Nat)
  root : Option (List Char)
deriving DecidableEq

/-- Python `nodes_dict[k] = v`: overwrite in place if the key is present,
otherwise append. -/
def dictInsert (d : List (List Char × RNode)) (k : List Char) (v : RNode) :
    List (List Char × RNode) :=
  if d.any (fun p => p.1 == k) then d.map (fun p => if p.1 == k then (k, v) else p)
  else d ++ [(k, v)]

/-- One iteration of `build_tree_structure`'s loop over the parsed nodes. -/
def buildStep (st : BuildState) (nd : RNode) : BuildState :=
  let nid := nodeId st.counter
  let nd1 := { nd with node_id := some nid }
  if nd.level = 0 then
    { dict := dictInsert st.dict nid nd1, counter := st.counter + 1,
      stack := [(nid, 0)], root := some nid }
  else
    let stack1 := st.stack.dropWhile (fun p => nd.level ≤ p.2)
    let nd2 := match stack1 with
      | (pid, _) :: _ =>
        { nd1 with parent_node_id := some pid, parent_relation := some nd1.text }
      | [] => nd1
    { dict := dictInsert st.dict nid nd2, counter := st.counter + 1,
      stack := (nid, nd.level) :: stack1, root := st.root }

/-- `build_tree_structure`: returns `(root_node_id, nodes_dict)`. -/
def build_tree_structure (parsed_nodes : List RNode) :
    Option (List Char) × List (List Char × RNode) :=
  let st := parsed_nodes.foldl buildStep ⟨[], 0, [], none⟩
  (st.root, st.dict)

/-- Python truthiness of an optional string (`None` and `""` are falsy). -/
def pyTruthyS : Option (List Char) → Bool
  | none => false
  | some s => !s.isEmpty

/-- `f"{x}"` where `x` is an optional float: `None` prints as `"None"`. -/
def reprOptDec : Option Dec → List Char
  | none => "None".data
  | some d => reprDec d

/-- `f"{x}"` where `x` is an optional string. -/
def reprOptS : Option (List Char) → List Char
  | none => "None".data
  | some s => s

/-- The regex class `[<=>!]`. -/
def opClass (c : Char) : Bool := c = '<' || c = '=' || c = '>' || c = '!'

/-- The regex class `[a-zA-Z0-9_.-]`. -/
def nameClass (c : Char) : Bool :=
  c.isAlpha || c.isDigit || c = '_' || c = '.' || c = '-'

/-- `re.match(r'([a-zA-Z0-9_.-]+)\s*[<=>!]+\s*(\d+\.?\d*)$', cs)`, returning
the feature-name group. The three character classes and whitespace are
pairwise disjoint, so each starred piece is forced to be the maximal run
and the match is deterministic; the trailing `$` forces the final number
group to consume the entire remainder. -/
def internalMatch (cs : List Char) : Option (List Char) :=
  let nm := cs.takeWhile nameClass
  if nm.isEmpty then none
  else
    let r1 := (cs.dropWhile nameClass).dropWhile pyWS
    if (r1.takeWhile opClass).isEmpty then none
    else
      let r2 := (r1.dropWhile opClass).dropWhile pyWS
      if validNum (r2.takeWhile numClass) && (r2.dropWhile numClass).isEmpty
      then some nm else none

/-- One node-declaration line of the DOT output (`generate_dot_from_tree`'s
first loop body). -/
def nodeDecl (nid : List Char) (nd : RNode) : List Char :=
  if pyTruthyS nd.prediction then
    let lbl :=
      if nd.error.isSome then
        nd.prediction.getD [] ++ " (".data ++ reprOptDec nd.instances ++ "/".data ++
          fmt2 (nd.error.getD ⟨0, 0⟩) ++ ")".data
      else
        nd.prediction.getD [] ++ " (".data ++ reprOptDec nd.instances ++ ")".data
    "  ".data ++ nid ++ " [label=\"".data ++ lbl ++ "\", fillcolor=lightblue];\n".data
  else
    let lbl := match internalMatch nd.text with
      | some nm => nm
      | none => nd.text
    "  ".data ++ nid ++ " [label=\"".data ++ lbl ++ "\"];\n".data

/-- One edge-declaration line of the DOT output (second loop body;
only emitted when the node's `parent_node_id` is truthy). -/
def edgeDecl (nid : List Char) (nd : RNode) : List Char :=
  "  ".data ++ reprOptS nd.parent_node_id ++ " -> ".data ++ nid ++
    " [label=\"".data ++ reprOptS nd.parent_relation ++ "\"];\n".data

/-- All node declarations, in node-table order. -/
def nodeDecls (dict : List (List Char × RNode)) : List (List Char) :=
  dict.map fun p => nodeDecl p.1 p.2

/-- All edge declarations, in node-table order, for nodes with a parent. -/
def edgeDecls (dict : List (List Char × RNode)) : List (List Char) :=
  (dict.filter fun p => pyTruthyS p.2.parent_node_id).map fun p => edgeDecl p.1 p.2

/-- The node-declaration format the specification prescribes (stated from
the spec's words, for comparison with `nodeDecl`): a leaf — a record
carrying a prediction — is labelled
`<predictionClass> (<instanceCount>/<errorCount to two decimal places>)`
and its declaration carries a distinguishing fill attribute; an internal
node is labelled by the feature name extracted by matching `conditionText`
against a `<name> <comparator> <threshold>` pattern, or by the whole
`conditionText` verbatim when that pattern does not match. -/
def specNodeDecl (nid : List Char) (nd : RNode) : List Char :=
  if nd.prediction.isSome then
    "  ".data ++ nid ++ " [label=\"".data ++ nd.prediction.getD [] ++ " (".data ++
      reprDec (nd.instances.getD ⟨0, 0⟩) ++ "/".data ++ fmt2 (nd.error.getD ⟨0, 0⟩) ++
      ")\", fillcolor=lightblue];\n".data
  else
    "  ".data ++ nid ++ " [label=\"".data ++
      (match internalMatch nd.text with
       | some nm => nm
       | none => nd.text) ++ "\"];\n".data

/-- The fixed DOT header emitted before any declaration. -/
def dotHeader : List Char :=
  "digraph J48Tree \x7b\n  graph [rankdir=TB];\n  node [shape=box, style=filled, fillcolor=lightgray];\n  edge [fontsize=10];\n".data

/-- `generate_dot_from_tree`: header, node declarations, edge declarations,
footer. The `root_id` argument is accepted but never consulted, exactly as
in the source. -/
def generate_dot_from_tree (_root0 : Option (List Char))
    (dict : List (List Char × RNode)) : List Char :=
  dotHeader ++ (nodeDecls dict).flatten ++ (edgeDecls dict).flatten ++ "\x7d\n".data

/-! ### Specification-side descriptions of the reconstruction -/

/-- Depth of the `j`-th parsed record (junk default past the end). -/
def lvl (ns : List RNode) (j : Nat) : Nat := (ns.getD j default).level

/-- The nearest index `j < n` with `lv j < d` (the "nearest preceding
strictly shallower node"), `none` when there is none. -/
def nearLT (lv : Nat → Nat) (d : Nat) : Nat → Option Nat
  | 0 => none
  | j + 1 => if lv j < d then some j else nearLT lv d j

/-- The most recent index `j < n` with `lv j = 0` (the last declared root). -/
def lastZero (lv : Nat → Nat) : Nat → Option Nat
  | 0 => none
  | j + 1 => if lv j = 0 then some j else lastZero lv j

/-- The indices whose (id, level) pairs form the ancestor stack after `n`
records, top first: each new record is pushed after removing all entries at
its level or deeper, and a depth-0 record clears the whole stack. -/
def chain (lv : Nat → Nat) : Nat → List Nat
  | 0 => []
  | n + 1 => n :: (chain lv n).filter (fun j => lv j < lv n)

/-- The record stored in the node table for index `i`: the parsed record
with its id filled in and, when some earlier record is strictly shallower,
the nearest such record as parent and the record's own text as the
incoming-edge label. -/
def finalRec (ns : List RNode) (i : Nat) : RNode :=
  let nd := ns.getD i default
  let base := { nd with node_id := some (nodeId i) }
  match nearLT (lvl ns) nd.level i with
  | some j => { base with parent_node_id := some (nodeId j),
                          parent_relation := some nd.text }
  | none => base

/-- The loop state of `build_tree_structure` after `n` records, described
in closed form. -/
def stateSpec (ns : List RNode) (n : Nat) : BuildState :=
  ⟨(List.range n).map (fun i => (nodeId i, finalRec ns i)), n,
   (chain (lvl ns) n).map (fun j => (nodeId j, lvl ns j)),
   (lastZero (lvl ns) n).map nodeId⟩

/-- Replace the last segment (`splitLines` output is never empty). -/
def mapLast (f : List Char → List Char) : List (List Char) → List (List Char)
  | [] => []
  | [h] => [f h]
  | h :: t => h :: mapLast f t

theorem nearLT_zero (lv : Nat → Nat) : ∀ n, nearLT lv 0 n = none := by
  intro n
  induction n with
  | zero => rfl
  | succ m ih => simp [nearLT, ih]

theorem nearLT_some (lv : Nat → Nat) (d : Nat) :
    ∀ n j, nearLT lv d n = some j →
      j < n ∧ lv j < d ∧ ∀ k, j < k → k < n → d ≤ lv k := by
  intro n
  induction n with
  | zero => intro j h; simp [nearLT] at h
  | succ m ih =>
    intro j h
    by_cases hm : lv m < d
    · simp [nearLT, hm] at h
      subst h
      exact ⟨Nat.lt_succ_self _, hm, fun k hk1 hk2 => absurd hk2 (by omega)⟩
    · simp [nearLT, hm] at h
      obtain ⟨hj, hlt, hall⟩ := ih j h
      refine ⟨Nat.lt_succ_of_lt hj, hlt, fun k hk1 hk2 => ?_⟩
      rcases Nat.lt_succ_iff_lt_or_eq.mp hk2 with hk | hk
      · exact hall k hk1 hk
      · subst hk; omega

theorem nearLT_none (lv : Nat → Nat) (d : Nat) :
    ∀ n, nearLT lv d n = none → ∀ j, j < n → d ≤ lv j := by
  intro n
  induction n with
  | zero => intro _ j hj; omega
  | succ m ih =>
    intro h j hj
    by_cases hm : lv m < d
    · simp [nearLT, hm] at h
    · simp [nearLT, hm] at h
      rcases Nat.lt_succ_iff_lt_or_eq.mp hj with hk | hk
      · exact ih h j hk
      · subst hk; omega

theorem lastZero_some (lv : Nat → Nat) :
    ∀ n j, lastZero lv n = some j →
      j < n ∧ lv j = 0 ∧ ∀ k, j < k → k < n → lv k ≠ 0 := by
  intro n
  induction n with
  | zero => intro j h; simp [lastZero] at h
  | succ m ih =>
    intro j h
    by_cases hm : lv m = 0
    · simp [lastZero, hm] at h
      subst h
      exact ⟨Nat.lt_succ_self _, hm, fun k hk1 hk2 => absurd hk2 (by omega)⟩
    · simp [lastZero, hm] at h
      obtain ⟨hj, h0, hall⟩ := ih j h
      refine ⟨Nat.lt_succ_of_lt hj, h0, fun k hk1 hk2 => ?_⟩
      rcases Nat.lt_succ_iff_lt_or_eq.mp hk2 with hk | hk
      · exact hall k hk1 hk
      · subst hk; exact hm

/-- Levels strictly decrease down the stack (top first ⇒ pairwise greater). -/
theorem chain_levels (lv : Nat → Nat) :
    ∀ n, (chain lv n).Pairwise (fun a b => lv b < lv a) := by
  intro n
  induction n with
  | zero => exact List.Pairwise.nil
  | succ m ih =>
    refine List.pairwise_cons.mpr ⟨fun b hb => ?_, ?_⟩
    · have := List.of_mem_filter hb
      simpa using this
    · exact ih.sublist (List.filter_sublist _)

/-- On a stack whose levels strictly decrease from the top, popping while
the top is at depth `≥ d` removes exactly the entries at depth `≥ d`. -/
theorem dropWhile_eq_filter_of_sorted (lv : Nat → Nat) (d : Nat) :
    ∀ l : List Nat, l.Pairwise (fun a b => lv b < lv a) →
      l.dropWhile (fun j => decide (d ≤ lv j)) = l.filter (fun j => decide (lv j < d)) := by
  intro l
  induction l with
  | nil => intro _; rfl
  | cons a t ih =>
    intro hp
    obtain ⟨ha, ht⟩ := List.pairwise_cons.mp hp
    by_cases had : d ≤ lv a
    · rw [List.dropWhile_cons_of_pos (by simpa using had),
        List.filter_cons_of_neg (by simpa using had)]
      exact ih ht
    · rw [List.dropWhile_cons_of_neg (by simpa using had),
        List.filter_cons_of_pos (by simp; omega)]
      congr 1
      refine (List.filter_eq_self.mpr fun b hb => ?_).symm
      have := ha b hb
      simp
      omega

/-- The top of the popped stack is the nearest preceding strictly
shallower record. -/
theorem head_filter_chain (lv : Nat → Nat) :
    ∀ n d, ((chain lv n).filter (fun j => decide (lv j < d))).head? = nearLT lv d n := by
  intro n
  induction n with
  | zero => intro d; rfl
  | succ m ih =>
    intro d
    show ((m :: (chain lv m).filter (fun j => decide (lv j < lv m))).filter
        (fun j => decide (lv j < d))).head? = _
    by_cases hmd : lv m < d
    · rw [List.filter_cons_of_pos (by simpa using hmd)]
      simp [nearLT, hmd]
    · rw [List.filter_cons_of_neg (by simpa using hmd), List.filter_filter]
      have : ∀ j : Nat,
          (decide (lv j < d) && decide (lv j < lv m)) = decide (lv j < d) := by
        intro j
        by_cases h : lv j < d
        · simp [h]
          omega
        · simp [h]
      rw [List.filter_congr (fun j _ => this j)]
      simp [nearLT, hmd, ih d]

/-! ### Injectivity of node identifiers -/

theorem natVal_append_digit (l : List Char) (c : Char) :
    natVal (l ++ [c]) = 10 * natVal l + (c.toNat - 48) := by
  simp [natVal, List.foldl_append]

theorem digitChar_val : ∀ k, k < 10 → (Nat.digitChar k).toNat - 48 = k := by decide

theorem natVal_natStrAux : ∀ fuel n, n < fuel → natVal (natStrAux fuel n) = n := by
  intro fuel
  induction fuel with
  | zero => intro n h; omega
  | succ f ih =>
    intro n h
    by_cases h10 : n < 10
    · simp only [natStrAux, if_pos h10]
      have := digitChar_val n h10
      simp [natVal]
      omega
    · have hdiv : n / 10 < f := by
        have h1 : n / 10 < n := Nat.div_lt_self (by omega) (by omega)
        omega
      simp only [natStrAux, if_neg h10]
      rw [natVal_append_digit, ih (n / 10) hdiv,
        digitChar_val (n % 10) (Nat.mod_lt _ (by omega))]
      omega

theorem natStr_inj {m n : Nat} (h : natStr m = natStr n) : m = n := by
  have hm := natVal_natStrAux (m + 1) m (Nat.lt_succ_self m)
  have hn := natVal_natStrAux (n + 1) n (Nat.lt_succ_self n)
  rw [show natStrAux (m + 1) m = natStr m from rfl] at hm
  rw [show natStrAux (n + 1) n = natStr n from rfl] at hn
  rw [h, hn] at hm
  exact hm.symm

theorem nodeId_inj {m n : Nat} (h : nodeId m = nodeId n) : m = n := by
  have : natStr m = natStr n := by
    have := List.cons.injEq 'N' (natStr m) 'N' (natStr n) ▸ h
    simpa [nodeId] using h
  exact natStr_inj this

/-! ### The reconstruction invariant -/

theorem fresh_key (ns : List RNode) (n : Nat) :
    ((List.range n).map (fun i => (nodeId i, finalRec ns i))).any
      (fun p => p.1 == nodeId n) = false := by
  rw [List.any_eq_false]
  intro p hp
  rw [List.mem_map] at hp
  obtain ⟨i, hi, rfl⟩ := hp
  rw [List.mem_range] at hi
  simp only [beq_iff_eq]
  intro he
  have := nodeId_inj he
  omega

theorem dictInsert_fresh (d : List (List Char × RNode)) (k : List Char) (v : RNode)
    (h : d.any (fun p => p.1 == k) = false) :
    dictInsert d k v = d ++ [(k, v)] := by
  simp [dictInsert, h]

theorem buildAux_spec (ns : List RNode) :
    ∀ n, n ≤ ns.length →
      (ns.take n).foldl buildStep ⟨[], 0, [], none⟩ = stateSpec ns n := by
  intro n
  induction n with
  | zero => simp [stateSpec, chain, lastZero]
  | succ m ih =>
    intro h
    have hm : m < ns.length := Nat.lt_of_succ_le h
    rw [List.take_succ, List.foldl_append, ih (Nat.le_of_lt hm),
      List.getElem?_eq_getElem hm]
    simp only [Option.toList_some, List.foldl_cons, List.foldl_nil]
    have hgetD : ns.getD m default = ns[m] := by
      rw [List.getD_eq_getElem]
    have hlvl : lvl ns m = ns[m].level := by rw [lvl, hgetD]
    have hfresh := fresh_key ns m
    have hchainS : chain (lvl ns) (m + 1)
        = m :: (chain (lvl ns) m).filter (fun j => decide (lvl ns j < ns[m].level)) := by
      rw [show chain (lvl ns) (m + 1) = m :: (chain (lvl ns) m).filter
          (fun j => decide (lvl ns j < lvl ns m)) from rfl, hlvl]
    have hlastS : lastZero (lvl ns) (m + 1)
        = if lvl ns m = 0 then some m else lastZero (lvl ns) m := rfl
    by_cases h0 : ns[m].level = 0
    · -- depth-0 record: stack reset, root updated
      have hnear : nearLT (lvl ns) ns[m].level m = none := by
        rw [h0]; exact nearLT_zero _ m
      have hfr : finalRec ns m = { ns[m] with node_id := some (nodeId m) } := by
        simp only [finalRec, hgetD, hnear]
      have hnil : (chain (lvl ns) m).filter
          (fun j => decide (lvl ns j < ns[m].level)) = [] := by
        rw [List.filter_eq_nil_iff]
        intro a _
        simp [h0]
      apply BuildState.ext
      · show (buildStep (stateSpec ns m) ns[m]).dict = _
        simp only [buildStep, stateSpec]
        rw [if_pos h0]
        show dictInsert _ (nodeId m) _ = _
        rw [dictInsert_fresh _ _ _ hfresh, List.range_succ, List.map_append]
        simp [hfr]
      · show (buildStep (stateSpec ns m) ns[m]).counter = _
        simp only [buildStep, stateSpec]
        rw [if_pos h0]
      · show (buildStep (stateSpec ns m) ns[m]).stack = _
        simp only [buildStep, stateSpec]
        rw [if_pos h0]
        show [(nodeId m, 0)] = _
        rw [hchainS, hnil, List.map_cons, List.map_nil, hlvl, h0]
      · show (buildStep (stateSpec ns m) ns[m]).root = _
        simp only [buildStep, stateSpec]
        rw [if_pos h0]
        show some (nodeId m) = _
        rw [hlastS, if_pos (by rw [hlvl]; exact h0)]
        rfl
    · -- deeper record: pop the stack, attach to the surviving top
      have hstack1 :
          (((chain (lvl ns) m).map (fun j => (nodeId j, lvl ns j))).dropWhile
            (fun p => decide (ns[m].level ≤ p.2)))
          = ((chain (lvl ns) m).filter (fun j => decide (lvl ns j < ns[m].level))).map
              (fun j => (nodeId j, lvl ns j)) := by
        rw [List.dropWhile_map]
        show ((chain (lvl ns) m).dropWhile
            (fun j => decide (ns[m].level ≤ lvl ns j))).map _ = _
        rw [dropWhile_eq_filter_of_sorted (lvl ns) ns[m].level _ (chain_levels _ m)]
      cases hc : (chain (lvl ns) m).filter (fun j => decide (lvl ns j < ns[m].level)) with
      | nil =>
        have hnear : nearLT (lvl ns) ns[m].level m = none := by
          rw [← head_filter_chain, hc]; rfl
        have hfr : finalRec ns m = { ns[m] with node_id := some (nodeId m) } := by
          simp only [finalRec, hgetD, hnear]
        apply BuildState.ext
        · show (buildStep (stateSpec ns m) ns[m]).dict = _
          simp only [buildStep, stateSpec]
          rw [if_neg h0, hstack1, hc, List.map_nil]
          show dictInsert _ (nodeId m) _ = _
          rw [dictInsert_fresh _ _ _ hfresh, List.range_succ, List.map_append]
          simp [hfr]
        · show (buildStep (stateSpec ns m) ns[m]).counter = _
          simp only [buildStep, stateSpec]
          rw [if_neg h0]
        · show (buildStep (stateSpec ns m) ns[m]).stack = _
          simp only [buildStep, stateSpec]
          rw [if_neg h0, hstack1, hc, List.map_nil]
          show [(nodeId m, ns[m].level)] = _
          rw [hchainS, hc, List.map_cons, List.map_nil, hlvl]
        · show (buildStep (stateSpec ns m) ns[m]).root = _
          simp only [buildStep, stateSpec]
          rw [if_neg h0]
          show (lastZero (lvl ns) m).map nodeId = _
          rw [hlastS, if_neg (by rw [hlvl]; exact h0)]
      | cons j t =>
        have hnear : nearLT (lvl ns) ns[m].level m = some j := by
          rw [← head_filter_chain, hc]; rfl
        have hfr : finalRec ns m =
            { ns[m] with node_id := some (nodeId m),
                         parent_node_id := some (nodeId j),
                         parent_relation := some ns[m].text } := by
          simp only [finalRec, hgetD, hnear]
        apply BuildState.ext
        · show (buildStep (stateSpec ns m) ns[m]).dict = _
          simp only [buildStep, stateSpec]
          rw [if_neg h0, hstack1, hc, List.map_cons]
          show dictInsert _ (nodeId m) _ = _
          rw [dictInsert_fresh _ _ _ hfresh, List.range_succ, List.map_append]
          simp [hfr]
        · show (buildStep (stateSpec ns m) ns[m]).counter = _
          simp only [buildStep, stateSpec]
          rw [if_neg h0]
        · show (buildStep (stateSpec ns m) ns[m]).stack = _
          simp only [buildStep, stateSpec]
          rw [if_neg h0, hstack1, hc, List.map_cons]
          show (nodeId m, ns[m].level) :: _ = _
          rw [hchainS, hc, List.map_cons, List.map_cons, hlvl]
        · show (buildStep (stateSpec ns m) ns[m]).root = _
          simp only [buildStep, stateSpec]
          rw [if_neg h0]
          show (lastZero (lvl ns) m).map nodeId = _
          rw [hlastS, if_neg (by rw [hlvl]; exact h0)]

/-- Closed form of the returned node table. -/
theorem build_dict (ns : List RNode) :
    (build_tree_structure ns).2
      = (List.range ns.length).map (fun i => (nodeId i, finalRec ns i)) := by
  have h := buildAux_spec ns ns.length (le_refl _)
  rw [List.take_length] at h
  rw [build_tree_structure, h]
  rfl

/-- Closed form of the returned root id: the most recent depth-0 record. -/
theorem build_root (ns : List RNode) :
    (build_tree_structure ns).1 = (lastZero (lvl ns) ns.length).map nodeId := by
  have h := buildAux_spec ns ns.length (le_refl _)
  rw [List.take_length] at h
  rw [build_tree_structure, h]
  rfl

/-- Entry `i` of the node table. -/
theorem dict_getD (ns : List RNode) (i : Nat) (hi : i < ns.length) :
    (build_tree_structure ns).2.getD i default = (nodeId i, finalRec ns i) := by
  rw [build_dict, List.getD_eq_getElem _ _ (by simpa using hi)]
  rw [List.getElem_map]
  simp [List.getElem_range]

/-! ### Facts about the parsing stage -/

theorem matchLeafSuffix_cls (cs : List Char) (g : List Char × List Char × Option (List Char))
    (h : matchLeafSuffix cs = some g) : g.1 = "POS".data ∨ g.1 = "NEG".data := by
  unfold matchLeafSuffix at h
  split at h
  · dsimp only at h
    split at h
    · exact absurd h (by simp)
    next c hc =>
      have hcls : c = "POS".data ∨ c = "NEG".data := by
        split at hc
        · exact Or.inl (Option.some_inj.mp hc).symm
        · split at hc
          · exact Or.inr (Option.some_inj.mp hc).symm
          · exact absurd hc (by simp)
      split at h
      · split at h
        · split at h
          · cases h
            exact hcls
          · split at h
            · split at h
              · cases h
                exact hcls
              · exact absurd h (by simp)
            · exact absurd h (by simp)
          · exact absurd h (by simp)
        · exact absurd h (by simp)
      · exact absurd h (by simp)
  · exact absurd h (by simp)

theorem leafSplit_cls :
    ∀ cs pre g, leafSplit cs = some (pre, g) →
      g.1 = "POS".data ∨ g.1 = "NEG".data := by
  intro cs
  induction cs with
  | nil => intro pre g h; simp [leafSplit] at h
  | cons c rest ih =>
    intro pre g h
    unfold leafSplit at h
    cases hr : leafSplit rest with
    | some pg =>
      obtain ⟨p1, g1⟩ := pg
      rw [hr] at h
      cases h
      exact ih _ _ hr
    | none =>
      rw [hr] at h
      cases hm : matchLeafSuffix (c :: rest) with
      | some g2 =>
        rw [hm] at h
        cases h
        exact matchLeafSuffix_cls _ _ hm
      | none => rw [hm] at h; cases h

theorem parseLine_fields (l : List Char) (nd : RNode) (h : parseLine l = some nd) :
    nd.parent_node_id = none ∧ nd.parent_relation = none ∧ nd.node_id = none ∧
    (nd.prediction = none → nd.instances = none ∧ nd.error = none) ∧
    (∀ p, nd.prediction = some p →
      (p = "POS".data ∨ p = "NEG".data) ∧ nd.instances.isSome ∧ nd.error.isSome) := by
  unfold parseLine at h
  split at h
  · exact absurd h (by simp)
  · dsimp only at h
    cases hls : leafSplit (strip (stripLevel l).2) with
    | some q =>
      obtain ⟨pre, cls, tok, errTok⟩ := q
      rw [hls] at h
      cases h
      refine ⟨rfl, rfl, rfl, by simp, ?_⟩
      intro p hp
      have : cls = p := by simpa using hp
      subst this
      exact ⟨leafSplit_cls _ _ _ hls, by simp, by simp⟩
    | none =>
      rw [hls] at h
      cases h
      exact ⟨rfl, rfl, rfl, by simp, by simp⟩

theorem parse_mem_fields (t : List Char) (nd : RNode)
    (h : nd ∈ parse_weka_j48_tree t) :
    nd.parent_node_id = none ∧ nd.parent_relation = none ∧ nd.node_id = none ∧
    (nd.prediction = none → nd.instances = none ∧ nd.error = none) ∧
    (∀ p, nd.prediction = some p →
      (p = "POS".data ∨ p = "NEG".data) ∧ nd.instances.isSome ∧ nd.error.isSome) := by
  rw [parse_weka_j48_tree, List.mem_filterMap] at h
  obtain ⟨l, _, hl⟩ := h
  exact parseLine_fields l nd hl

theorem parseLine_isSome (l : List Char) :
    (parseLine l).isSome = !(strip l).isEmpty := by
  unfold parseLine
  by_cases h : strip l = []
  · simp [h]
  · rw [if_neg h]
    dsimp only
    cases hq : leafSplit (strip (stripLevel l).2) with
    | some q =>
      obtain ⟨pre, cls, tok, errTok⟩ := q
      simp [List.isEmpty_iff, h]
    | none => simp [List.isEmpty_iff, h]

/-! ### Counting non-blank lines (for the declaration-count property) -/

theorem splitLines_ne_nil : ∀ l : List Char, splitLines l ≠ [] := by
  intro l
  induction l with
  | nil => simp [splitLines]
  | cons c r ih =>
    by_cases hc : c = '\n'
    · simp [splitLines, hc]
    · rw [show splitLines (c :: r) = consHead c (splitLines r) by simp [splitLines, hc]]
      cases splitLines r <;> simp [consHead]

theorem strip_cons_ws (c : Char) (h : pyWS c = true) (l : List Char) :
    strip (c :: l) = strip l := by
  rw [strip, strip, List.dropWhile_cons_of_pos h]

theorem strip_append_ws (l : List Char) (c : Char) (h : pyWS c = true) :
    strip (l ++ [c]) = strip l := by
  rw [strip, strip, List.dropWhile_append]
  by_cases he : (l.dropWhile pyWS).isEmpty
  · rw [if_pos he]
    have h1 : l.dropWhile pyWS = [] := by rwa [List.isEmpty_iff] at he
    rw [h1, show List.dropWhile pyWS [c] = [] by simp [List.dropWhile_cons_of_pos h]]
  · rw [if_neg he, List.reverse_append]
    simp only [List.reverse_cons, List.reverse_nil, List.nil_append, List.singleton_append]
    rw [List.dropWhile_cons_of_pos h]

theorem splitLines_snoc_nl (a : List Char) :
    splitLines (a ++ ['\n']) = splitLines a ++ [[]] := by
  induction a with
  | nil => simp [splitLines]
  | cons c a ih =>
    by_cases hc : c = '\n'
    · subst hc
      simp [splitLines, ih]
    · rw [List.cons_append, show splitLines (c :: (a ++ ['\n']))
          = consHead c (splitLines (a ++ ['\n'])) by simp [splitLines, hc],
        show splitLines (c :: a) = consHead c (splitLines a) by simp [splitLines, hc], ih]
      cases h : splitLines a with
      | nil => exact absurd h (splitLines_ne_nil a)
      | cons x t => simp [consHead]

theorem splitLines_snoc (c : Char) (hc : ¬c = '\n') :
    ∀ a : List Char, splitLines (a ++ [c]) = mapLast (· ++ [c]) (splitLines a) := by
  intro a
  induction a with
  | nil => simp [splitLines, hc, consHead, mapLast]
  | cons b a ih =>
    by_cases hb : b = '\n'
    · subst hb
      rw [List.cons_append, show splitLines ('\n' :: (a ++ [c]))
          = [] :: splitLines (a ++ [c]) by simp [splitLines],
        show splitLines ('\n' :: a) = [] :: splitLines a by simp [splitLines], ih]
      cases h : splitLines a with
      | nil => exact absurd h (splitLines_ne_nil a)
      | cons x t => simp [mapLast]
    · rw [List.cons_append, show splitLines (b :: (a ++ [c]))
          = consHead b (splitLines (a ++ [c])) by simp [splitLines, hb],
        show splitLines (b :: a) = consHead b (splitLines a) by simp [splitLines, hb], ih]
      cases h : splitLines a with
      | nil => exact absurd h (splitLines_ne_nil a)
      | cons x t =>
        cases t with
        | nil => simp [consHead, mapLast]
        | cons y t2 => simp [consHead, mapLast]

theorem countP_mapLast_ws (c : Char) (h : pyWS c = true) :
    ∀ L : List (List Char),
      (mapLast (· ++ [c]) L).countP (fun x => !(strip x).isEmpty)
        = L.countP (fun x => !(strip x).isEmpty) := by
  intro L
  induction L with
  | nil => rfl
  | cons a t ih =>
    cases t with
    | nil => simp [mapLast, List.countP_cons, strip_append_ws a c h]
    | cons b t2 =>
      rw [show mapLast (· ++ [c]) (a :: b :: t2)
          = a :: mapLast (· ++ [c]) (b :: t2) from rfl,
        List.countP_cons, List.countP_cons, ih]

theorem cNB_snoc_ws (a : List Char) (c : Char) (h : pyWS c = true) :
    (splitLines (a ++ [c])).countP (fun x => !(strip x).isEmpty)
      = (splitLines a).countP (fun x => !(strip x).isEmpty) := by
  by_cases hc : c = '\n'
  · subst hc
    rw [splitLines_snoc_nl, List.countP_append]
    simp [strip]
  · rw [splitLines_snoc c hc a]
    exact countP_mapLast_ws c h _

theorem cNB_append_ws :
    ∀ (w : List Char) (a : List Char), (∀ x ∈ w, pyWS x = true) →
      (splitLines (a ++ w)).countP (fun x => !(strip x).isEmpty)
        = (splitLines a).countP (fun x => !(strip x).isEmpty) := by
  intro w
  induction w with
  | nil => intro a _; simp
  | cons c w ih =>
    intro a hw
    rw [show a ++ c :: w = (a ++ [c]) ++ w by simp,
      ih (a ++ [c]) (fun x hx => hw x (List.mem_cons_of_mem c hx)),
      cNB_snoc_ws a c (hw c (List.mem_cons_self c w))]

theorem cNB_dropWhile (l : List Char) :
    (splitLines (l.dropWhile pyWS)).countP (fun x => !(strip x).isEmpty)
      = (splitLines l).countP (fun x => !(strip x).isEmpty) := by
  induction l with
  | nil => rfl
  | cons c r ih =>
    by_cases hc : pyWS c
    · rw [List.dropWhile_cons_of_pos hc, ih]
      by_cases hn : c = '\n'
      · rw [show splitLines (c :: r) = [] :: splitLines r by simp [splitLines, hn]]
        simp [strip]
      · rw [show splitLines (c :: r) = consHead c (splitLines r) by simp [splitLines, hn]]
        cases h : splitLines r with
        | nil => exact absurd h (splitLines_ne_nil r)
        | cons x t => simp [consHead, List.countP_cons, strip_cons_ws c hc x]
    · rw [List.dropWhile_cons_of_neg hc]

theorem cNB_strip (t : List Char) :
    (splitLines (strip t)).countP (fun x => !(strip x).isEmpty)
      = (splitLines t).countP (fun x => !(strip x).isEmpty) := by
  have hdecomp : t.dropWhile pyWS
      = ((t.dropWhile pyWS).reverse.dropWhile pyWS).reverse
        ++ ((t.dropWhile pyWS).reverse.takeWhile pyWS).reverse := by
    rw [← List.reverse_append, List.takeWhile_append_dropWhile, List.reverse_reverse]
  have hws : ∀ x ∈ ((t.dropWhile pyWS).reverse.takeWhile pyWS).reverse, pyWS x = true := by
    intro x hx
    rw [List.mem_reverse] at hx
    exact List.mem_takeWhile_imp hx
  have h1 := cNB_append_ws (((t.dropWhile pyWS).reverse.takeWhile pyWS).reverse)
    (((t.dropWhile pyWS).reverse.dropWhile pyWS).reverse) hws
  rw [← hdecomp] at h1
  calc (splitLines (strip t)).countP (fun x => !(strip x).isEmpty)
      = (splitLines (t.dropWhile pyWS)).countP (fun x => !(strip x).isEmpty) := h1.symm
    _ = (splitLines t).countP (fun x => !(strip x).isEmpty) := cNB_dropWhile t

/-- One parsed record per non-blank line of the raw input text. -/
theorem parse_length (t : List Char) :
    (parse_weka_j48_tree t).length
      = (splitLines t).countP (fun l => !(strip l).isEmpty) := by
  rw [parse_weka_j48_tree, List.length_filterMap_eq_countP, ← cNB_strip t]
  exact List.countP_congr (fun l _ => by rw [parseLine_isSome])

/-! ### Further helper lemmas -/

theorem finalRec_fields (ns : List RNode) (i : Nat) :
    (finalRec ns i).prediction = (ns.getD i default).prediction ∧
    (finalRec ns i).instances = (ns.getD i default).instances ∧
    (finalRec ns i).error = (ns.getD i default).error ∧
    (finalRec ns i).text = (ns.getD i default).text ∧
    (finalRec ns i).level = (ns.getD i default).level := by
  unfold finalRec
  dsimp only
  cases nearLT (lvl ns) (ns.getD i default).level i <;> simp

theorem nodeDecl_eq_spec (nid : List Char) (nd : RNode)
    (h : ∀ p, nd.prediction = some p →
      p ≠ [] ∧ nd.instances.isSome ∧ nd.error.isSome) :
    nodeDecl nid nd = specNodeDecl nid nd := by
  cases hp : nd.prediction with
  | none => rw [nodeDecl, specNodeDecl, hp]; rfl
  | some p =>
    obtain ⟨hne, hinst, herr⟩ := h p hp
    obtain ⟨d, hd⟩ := Option.isSome_iff_exists.mp hinst
    have htr : pyTruthyS (some p) = true := by
      simp [pyTruthyS, List.isEmpty_iff, hne]
    simp [nodeDecl, specNodeDecl, hp, hd, htr, herr, reprOptDec, List.append_assoc]

theorem parseLine_level (l : List Char) (nd : RNode) (h : parseLine l = some nd) :
    nd.level = (stripLevel l).1 := by
  unfold parseLine at h
  split at h
  · exact absurd h (by simp)
  · dsimp only at h
    cases hls : leafSplit (strip (stripLevel l).2) with
    | some q =>
      obtain ⟨pre, cls, tok, errTok⟩ := q
      rw [hls] at h
      cases h
      rfl
    | none =>
      rw [hls] at h
      cases h
      rfl

theorem head_filterMap_find? :
    ∀ L : List (List Char), ∀ l,
      L.find? (fun x => !(strip x).isEmpty) = some l →
      (L.filterMap parseLine).head? = parseLine l := by
  intro L
  induction L with
  | nil => intro l h; simp at h
  | cons a L ih =>
    intro l h
    by_cases ha : (!(strip a).isEmpty) = true
    · rw [@List.find?_cons_of_pos _ (fun x => !(strip x).isEmpty) a L ha] at h
      cases h
      rw [List.filterMap_cons]
      cases hp : parseLine a with
      | none =>
        have hs := parseLine_isSome a
        rw [hp, ha] at hs
        exact absurd hs (by simp)
      | some nd => rfl
    · rw [@List.find?_cons_of_neg _ (fun x => !(strip x).isEmpty) a L ha] at h
      have hnone : parseLine a = none := by
        apply Option.not_isSome_iff_eq_none.mp
        rw [parseLine_isSome a]
        simpa using ha
      rw [List.filterMap_cons, hnone]
      exact ih l h

theorem stripLevel_nm (l : List Char) (hm : l.take 4 ≠ marker) :
    stripLevel l = (0, l) := by
  rw [stripLevel]
  cases hl : l.length with
  | zero => rfl
  | succ k => simp [stripLevelF, hm]

/-! ### The claims -/

/-- C1: for every input text and every node of the reconstructed table
(depth-0 roots excepted), if the node has a parent then that parent is an
earlier node of strictly smaller depth and is the nearest preceding node
(in input-line order) whose depth is strictly below the node's depth. -/
theorem parent_is_nearest_shallower (t : List Char) (i : Nat) (pid : List Char)
    (hi : i < (parse_weka_j48_tree t).length)
    (hp : (((build_tree_structure (parse_weka_j48_tree t)).2.getD i default).2).parent_node_id
      = some pid) :
    ∃ j, j < i ∧ pid = nodeId j ∧
      ((build_tree_structure (parse_weka_j48_tree t)).2.getD j default).1 = nodeId j ∧
      lvl (parse_weka_j48_tree t) j < lvl (parse_weka_j48_tree t) i ∧
      ∀ k, j < k → k < i →
        lvl (parse_weka_j48_tree t) i ≤ lvl (parse_weka_j48_tree t) k := by
  have hd := dict_getD (parse_weka_j48_tree t) i hi
  rw [hd] at hp
  have hmem : (parse_weka_j48_tree t).getD i default ∈ parse_weka_j48_tree t := by
    rw [List.getD_eq_getElem _ _ hi]
    exact List.getElem_mem _
  obtain ⟨hpn, -, -, -, -⟩ := parse_mem_fields t _ hmem
  dsimp only at hp
  simp only [finalRec] at hp
  cases hnear : nearLT (lvl (parse_weka_j48_tree t))
      ((parse_weka_j48_tree t).getD i default).level i with
  | none =>
    rw [hnear] at hp
    dsimp only at hp
    rw [hpn] at hp
    cases hp
  | some j =>
    rw [hnear] at hp
    dsimp only at hp
    have hpid : pid = nodeId j := (Option.some_inj.mp hp).symm
    obtain ⟨hj, hlt, hge⟩ := nearLT_some (lvl (parse_weka_j48_tree t)) _ i j hnear
    exact ⟨j, hj, hpid, by rw [dict_getD _ j (Nat.lt_trans hj hi)], hlt,
      fun k h1 h2 => hge k h1 h2⟩

/-- C1 witness at the two-line input `"A <= 1\n|   A <= 1: POS (5.0)"`. -/
theorem parent_is_nearest_shallower_witness :
    ∃ j, j < 1 ∧ nodeId 0 = nodeId j ∧
      ((build_tree_structure
        (parse_weka_j48_tree "A <= 1\n|   A <= 1: POS (5.0)".data)).2.getD j default).1
        = nodeId j ∧
      lvl (parse_weka_j48_tree "A <= 1\n|   A <= 1: POS (5.0)".data) j
        < lvl (parse_weka_j48_tree "A <= 1\n|   A <= 1: POS (5.0)".data) 1 ∧
      ∀ k, j < k → k < 1 →
        lvl (parse_weka_j48_tree "A <= 1\n|   A <= 1: POS (5.0)".data) 1
          ≤ lvl (parse_weka_j48_tree "A <= 1\n|   A <= 1: POS (5.0)".data) k :=
  parent_is_nearest_shallower "A <= 1\n|   A <= 1: POS (5.0)".data 1 (nodeId 0)
    (by decide) (by decide)

/-- C2 counterexample: on two depth-0 lines the reconstructor's root output
names only the second root `N1`; the first discovered root id `N0` is not
part of it, so the output is not the collection of all root identifiers. -/
theorem single_root_counterexample :
    lvl (parse_weka_j48_tree "A <= 0\nA > 0".data) 0 = 0 ∧
    lvl (parse_weka_j48_tree "A <= 0\nA > 0".data) 1 = 0 ∧
    (parse_weka_j48_tree "A <= 0\nA > 0".data).length = 2 ∧
    (build_tree_structure (parse_weka_j48_tree "A <= 0\nA > 0".data)).1
      = some (nodeId 1) ∧
    (build_tree_structure (parse_weka_j48_tree "A <= 0\nA > 0".data)).1
      ≠ some (nodeId 0) := by
  decide

/-- C2 amended: besides the node table, the reconstructor returns only the
identifier of the most recently seen depth-0 record (`none` when there is
no depth-0 record), not the collection of all discovered root ids. -/
theorem single_root_amended (t : List Char) :
    (build_tree_structure (parse_weka_j48_tree t)).1
      = (lastZero (lvl (parse_weka_j48_tree t)) (parse_weka_j48_tree t).length).map
          nodeId :=
  build_root _

/-- C3: an input with two depth-0 lines yields two distinct parentless
nodes in the table, one per depth-0 line, neither overwritten nor dropped. -/
theorem forest_roots_kept (t : List Char) (i j : Nat)
    (hij : i < j) (hj : j < (parse_weka_j48_tree t).length)
    (hi0 : lvl (parse_weka_j48_tree t) i = 0)
    (hj0 : lvl (parse_weka_j48_tree t) j = 0) :
    ((build_tree_structure (parse_weka_j48_tree t)).2.getD i default).1 = nodeId i ∧
    ((build_tree_structure (parse_weka_j48_tree t)).2.getD j default).1 = nodeId j ∧
    nodeId i ≠ nodeId j ∧
    (((build_tree_structure (parse_weka_j48_tree t)).2.getD i default).2).parent_node_id
      = none ∧
    (((build_tree_structure (parse_weka_j48_tree t)).2.getD j default).2).parent_node_id
      = none ∧
    (build_tree_structure (parse_weka_j48_tree t)).2.length
      = (parse_weka_j48_tree t).length := by
  have hparent : ∀ m, m < (parse_weka_j48_tree t).length →
      lvl (parse_weka_j48_tree t) m = 0 →
      (((build_tree_structure (parse_weka_j48_tree t)).2.getD m default).2).parent_node_id
        = none := by
    intro m hm h0
    rw [dict_getD _ m hm]
    have h0' : ((parse_weka_j48_tree t).getD m default).level = 0 := h0
    have hmem : (parse_weka_j48_tree t).getD m default ∈ parse_weka_j48_tree t := by
      rw [List.getD_eq_getElem _ _ hm]
      exact List.getElem_mem _
    obtain ⟨hpn, -, -, -, -⟩ := parse_mem_fields t _ hmem
    simp only [finalRec, h0', nearLT_zero]
    exact hpn
  refine ⟨by rw [dict_getD _ i (Nat.lt_trans hij hj)],
    by rw [dict_getD _ j hj],
    fun h => absurd (nodeId_inj h) (by omega),
    hparent i (Nat.lt_trans hij hj) hi0, hparent j hj hj0,
    by rw [build_dict]; simp⟩

/-- C3 witness at the forest input `"A <= 0\nA > 0"`. -/
theorem forest_roots_kept_witness :
    ((build_tree_structure (parse_weka_j48_tree "A <= 0\nA > 0".data)).2.getD 0 default).1
      = nodeId 0 ∧
    ((build_tree_structure (parse_weka_j48_tree "A <= 0\nA > 0".data)).2.getD 1 default).1
      = nodeId 1 ∧
    nodeId 0 ≠ nodeId 1 ∧
    (((build_tree_structure (parse_weka_j48_tree "A <= 0\nA > 0".data)).2.getD 0
        default).2).parent_node_id = none ∧
    (((build_tree_structure (parse_weka_j48_tree "A <= 0\nA > 0".data)).2.getD 1
        default).2).parent_node_id = none ∧
    (build_tree_structure (parse_weka_j48_tree "A <= 0\nA > 0".data)).2.length
      = (parse_weka_j48_tree "A <= 0\nA > 0".data).length :=
  forest_roots_kept "A <= 0\nA > 0".data 0 1 (by decide) (by decide)
    (by decide) (by decide)

/-- C4: the leaf recognizer maps `"f <= 1: NEG (30.07/14.97)"` to a leaf
record with class NEG, instance count 30.07, error count 14.97 and
condition text `"f <= 1"`, and `"g > 2: POS (15.7)"` to class POS,
instance count 15.7 and error count defaulting to 0.0. -/
theorem leaf_recognizer_examples :
    parseLine "f <= 1: NEG (30.07/14.97)".data
      = some ⟨0, "f <= 1".data, some ("NEG".data), some ⟨3007, 2⟩, some ⟨1497, 2⟩,
              none, none, none⟩ ∧
    parseLine "g > 2: POS (15.7)".data
      = some ⟨0, "g > 2".data, some ("POS".data), some ⟨157, 1⟩, some ⟨0, 0⟩,
              none, none, none⟩ ∧
    (⟨3007, 2⟩ : Dec).toQ = 30.07 ∧ (⟨1497, 2⟩ : Dec).toQ = 14.97 ∧
    (⟨157, 1⟩ : Dec).toQ = 15.7 ∧ (⟨0, 0⟩ : Dec).toQ = 0 := by
  refine ⟨by decide, by decide, ?_, ?_, ?_, ?_⟩ <;> norm_num [Dec.toQ]

/-- C5: for every node of a table produced by the pipeline, the emitted
node declaration has exactly the label and fill attribute the spec
prescribes (`specNodeDecl`): leaves show
`<class> (<instances>/<error, two decimals>)` plus the fill attribute,
internal nodes show the extracted feature name or the verbatim condition
text on regex mismatch. -/
theorem node_declaration_label (t : List Char) (i : Nat)
    (hi : i < (build_tree_structure (parse_weka_j48_tree t)).2.length) :
    nodeDecl ((build_tree_structure (parse_weka_j48_tree t)).2.getD i default).1
        ((build_tree_structure (parse_weka_j48_tree t)).2.getD i default).2
      = specNodeDecl ((build_tree_structure (parse_weka_j48_tree t)).2.getD i default).1
          ((build_tree_structure (parse_weka_j48_tree t)).2.getD i default).2 := by
  have hi' : i < (parse_weka_j48_tree t).length := by
    rw [build_dict] at hi
    simpa using hi
  rw [dict_getD _ i hi']
  apply nodeDecl_eq_spec
  intro p hp
  have hmem : (parse_weka_j48_tree t).getD i default ∈ parse_weka_j48_tree t := by
    rw [List.getD_eq_getElem _ _ hi']
    exact List.getElem_mem _
  obtain ⟨-, -, -, -, hleaf⟩ := parse_mem_fields t _ hmem
  obtain ⟨hfp, hfi, hfe, -, -⟩ := finalRec_fields (parse_weka_j48_tree t) i
  rw [hfp] at hp
  obtain ⟨hcls, hinst, herr⟩ := hleaf p hp
  refine ⟨?_, by rw [hfi]; exact hinst, by rw [hfe]; exact herr⟩
  rcases hcls with h | h <;> simp [h]

/-- C5 witness at the two-line input (one internal node, one leaf). -/
theorem node_declaration_label_witness :
    nodeDecl ((build_tree_structure
        (parse_weka_j48_tree "A <= 1\n|   A <= 1: POS (5.0)".data)).2.getD 1 default).1
      ((build_tree_structure
        (parse_weka_j48_tree "A <= 1\n|   A <= 1: POS (5.0)".data)).2.getD 1 default).2
      = specNodeDecl ((build_tree_structure
          (parse_weka_j48_tree "A <= 1\n|   A <= 1: POS (5.0)".data)).2.getD 1 default).1
        ((build_tree_structure
          (parse_weka_j48_tree "A <= 1\n|   A <= 1: POS (5.0)".data)).2.getD 1 default).2 :=
  node_declaration_label "A <= 1\n|   A <= 1: POS (5.0)".data 1 (by decide)

/-- C6: the number of emitted node declarations equals the number of
non-blank lines of the raw input text. -/
theorem decl_count_eq_nonblank_lines (t : List Char) :
    (nodeDecls (build_tree_structure (parse_weka_j48_tree t)).2).length
      = (splitLines t).countP (fun l => !(strip l).isEmpty) := by
  rw [nodeDecls, List.length_map, build_dict, List.length_map, List.length_range,
    parse_length]

/-- C7: a record of non-zero depth with no strictly shallower predecessor
(the stack is empty after popping) is not rejected: it is stored in the
table as a parentless node without an incoming-edge label, its depth is
kept, and the whole pass still processes every record. -/
theorem orphan_node_kept (t : List Char) (i : Nat)
    (hi : i < (parse_weka_j48_tree t).length)
    (_h0 : lvl (parse_weka_j48_tree t) i ≠ 0)
    (hno : nearLT (lvl (parse_weka_j48_tree t)) (lvl (parse_weka_j48_tree t) i) i
      = none) :
    ((build_tree_structure (parse_weka_j48_tree t)).2.getD i default).1 = nodeId i ∧
    (((build_tree_structure (parse_weka_j48_tree t)).2.getD i default).2).parent_node_id
      = none ∧
    (((build_tree_structure (parse_weka_j48_tree t)).2.getD i default).2).parent_relation
      = none ∧
    (((build_tree_structure (parse_weka_j48_tree t)).2.getD i default).2).level
      = lvl (parse_weka_j48_tree t) i ∧
    (build_tree_structure (parse_weka_j48_tree t)).2.length
      = (parse_weka_j48_tree t).length := by
  rw [dict_getD _ i hi]
  have hmem : (parse_weka_j48_tree t).getD i default ∈ parse_weka_j48_tree t := by
    rw [List.getD_eq_getElem _ _ hi]
    exact List.getElem_mem _
  obtain ⟨hpn, hpr, -, -, -⟩ := parse_mem_fields t _ hmem
  have hno' : nearLT (lvl (parse_weka_j48_tree t))
      ((parse_weka_j48_tree t).getD i default).level i = none := hno
  refine ⟨rfl, ?_, ?_, ?_, by rw [build_dict]; simp⟩
  · simp only [finalRec, hno']
    exact hpn
  · simp only [finalRec, hno']
    exact hpr
  · simp only [finalRec, hno']
    rfl

/-- C7 witness: a first line already at depth 1. -/
theorem orphan_node_kept_witness :
    ((build_tree_structure (parse_weka_j48_tree "|   A <= 1".data)).2.getD 0 default).1
      = nodeId 0 ∧
    (((build_tree_structure
        (parse_weka_j48_tree "|   A <= 1".data)).2.getD 0 default).2).parent_node_id
      = none ∧
    (((build_tree_structure
        (parse_weka_j48_tree "|   A <= 1".data)).2.getD 0 default).2).parent_relation
      = none ∧
    (((build_tree_structure
        (parse_weka_j48_tree "|   A <= 1".data)).2.getD 0 default).2).level
      = lvl (parse_weka_j48_tree "|   A <= 1".data) 0 ∧
    (build_tree_structure (parse_weka_j48_tree "|   A <= 1".data)).2.length
      = (parse_weka_j48_tree "|   A <= 1".data).length :=
  orphan_node_kept "|   A <= 1".data 0 (by decide) (by decide) (by decide)

/-- C8: a node's incoming-edge label is present exactly when the node has a
parent, and when present it equals the node's own condition text. -/
theorem edge_label_is_own_condition (t : List Char) (i : Nat)
    (hi : i < (parse_weka_j48_tree t).length) :
    ((((build_tree_structure (parse_weka_j48_tree t)).2.getD i default).2).parent_node_id.isSome
      ↔ (((build_tree_structure
          (parse_weka_j48_tree t)).2.getD i default).2).parent_relation.isSome) ∧
    ∀ r, (((build_tree_structure
        (parse_weka_j48_tree t)).2.getD i default).2).parent_relation = some r →
      r = (((build_tree_structure (parse_weka_j48_tree t)).2.getD i default).2).text := by
  rw [dict_getD _ i hi]
  have hmem : (parse_weka_j48_tree t).getD i default ∈ parse_weka_j48_tree t := by
    rw [List.getD_eq_getElem _ _ hi]
    exact List.getElem_mem _
  obtain ⟨hpn, hpr, -, -, -⟩ := parse_mem_fields t _ hmem
  simp only [finalRec]
  cases hnear : nearLT (lvl (parse_weka_j48_tree t))
      ((parse_weka_j48_tree t).getD i default).level i with
  | none =>
    dsimp only
    rw [hpn, hpr]
    exact ⟨Iff.rfl, fun r hr => by cases hr⟩
  | some j =>
    refine ⟨by simp, fun r hr => ?_⟩
    simp at hr
    simp [hr]

/-- C8 witness at the two-line input. -/
theorem edge_label_is_own_condition_witness :
    ((((build_tree_structure
        (parse_weka_j48_tree "A <= 1\n|   A <= 1: POS (5.0)".data)).2.getD 1
          default).2).parent_node_id.isSome
      ↔ (((build_tree_structure
          (parse_weka_j48_tree "A <= 1\n|   A <= 1: POS (5.0)".data)).2.getD 1
            default).2).parent_relation.isSome) ∧
    ∀ r, (((build_tree_structure
        (parse_weka_j48_tree "A <= 1\n|   A <= 1: POS (5.0)".data)).2.getD 1
          default).2).parent_relation = some r →
      r = (((build_tree_structure
          (parse_weka_j48_tree "A <= 1\n|   A <= 1: POS (5.0)".data)).2.getD 1
            default).2).text :=
  edge_label_is_own_condition "A <= 1\n|   A <= 1: POS (5.0)".data 1 (by decide)

/-- C9 counterexample: when the input's first line itself starts with the
indentation marker, the first emitted record has depth 1, not 0. -/
theorem first_node_depth_counterexample :
    (parse_weka_j48_tree "|   A <= 1".data).length = 1 ∧
    ((parse_weka_j48_tree "|   A <= 1".data).getD 0 default).level = 1 := by
  decide

/-- C9 amended: whenever the first non-blank line of the (stripped) input
does not begin with the indentation marker `"|   "`, the first emitted
record has depth 0. -/
theorem first_node_depth_zero (t l : List Char)
    (hfind : (splitLines (strip t)).find? (fun x => !(strip x).isEmpty) = some l)
    (hm : l.take 4 ≠ marker) :
    ∃ nd, (parse_weka_j48_tree t).head? = some nd ∧ nd.level = 0 := by
  rw [parse_weka_j48_tree]
  rw [head_filterMap_find? _ l hfind]
  have hpred : (!(strip l).isEmpty) = true :=
    @List.find?_some _ (fun x => !(strip x).isEmpty) l _ hfind
  cases hp : parseLine l with
  | none =>
    have := parseLine_isSome l
    rw [hp, hpred] at this
    exact absurd this (by simp)
  | some nd =>
    refine ⟨nd, rfl, ?_⟩
    rw [parseLine_level l nd hp, stripLevel_nm l hm]

/-- C9 amended-claim witness at the input `"A <= 0"`. -/
theorem first_node_depth_zero_witness :
    ∃ nd, (parse_weka_j48_tree "A <= 0".data).head? = some nd ∧ nd.level = 0 :=
  first_node_depth_zero "A <= 0".data "A <= 0".data (by decide) (by decide)

/-- C10: the emitted DOT text is a function of the node table alone — the
root argument (including `none`) never changes the output — and every node
of the table receives its own declaration, reachable from the root or not. -/
theorem emitter_ignores_root (r1 r2 : Option (List Char))
    (dict : List (List Char × RNode)) :
    generate_dot_from_tree r1 dict = generate_dot_from_tree r2 dict ∧
    (nodeDecls dict).length = dict.length ∧
    ∀ p ∈ dict, nodeDecl p.1 p.2 ∈ nodeDecls dict := by
  exact ⟨rfl, by simp [nodeDecls], fun p hp => List.mem_map_of_mem _ hp⟩

/-- C10 witness on a one-node table with two different root arguments. -/
theorem emitter_ignores_root_witness :
    generate_dot_from_tree none [(nodeId 0, (default : RNode))]
      = generate_dot_from_tree (some (nodeId 1)) [(nodeId 0, (default : RNode))] ∧
    (nodeDecls [(nodeId 0, (default : RNode))]).length = [(nodeId 0, (default : RNode))].length ∧
    ∀ p ∈ [(nodeId 0, (default : RNode))], nodeDecl p.1 p.2 ∈ nodeDecls [(nodeId 0, (default : RNode))] :=
  emitter_ignores_root none (some (nodeId 1)) [(nodeId 0, (default : RNode))]

end TreeViz
